import Mathlib

/-!
Verification of the Fragment Assembly & Hydration Synchronization pipeline
of the react-ssr-fragment-app repository.

The development shallowly embeds the relevant TypeScript sources:

* `server/utils.ts` — `getSlugFromUrl`, `serializeContent` (JSON serialization
  with angle-bracket escaping for safe embedding in a script tag);
* `src/api/contentstack.ts` — `fetchPageBySlug` (content resolver);
* `server/index.ts` — `buildAssetUrl`, `getFileName`, `generateAssetTags`
  (manifest resolver);
* `src/hooks/useLivePreview.ts` — the client hydration synchronizer, embedded
  as an explicit state machine over event traces;
* `src/entry-client.tsx` — the double-hydration guard.

JavaScript strings are modelled as `List Char`; the JSON builtins
(`JSON.stringify`, `JSON.parse`) used by `serializeContent` are modelled over
an inductive `Json` value type with integer numbers.  The parser model accepts
exactly the whitespace-free grammar that the stringifier emits (the
serializer never emits whitespace, so the round-trip claims only exercise
this fragment of the full JSON grammar).
-/

set_option maxHeartbeats 1000000

namespace FragmentApp

/-- Opening curly brace character (written via its hexadecimal escape). -/
def obrace : Char := '\x7b'

/-- Closing curly brace character (written via its hexadecimal escape). -/
def cbrace : Char := '\x7d'

/-- JSON values: the serializable payloads handled by `serializeContent`.
Numbers are modelled as integers; strings and object keys as character
lists. -/
inductive Json where
  | null : Json
  | bool (b : Bool) : Json
  | num (n : Int) : Json
  | str (s : List Char) : Json
  | arr (elems : List Json) : Json
  | obj (fields : List (List Char × Json)) : Json

/-- Decimal digit character, as produced by JavaScript number formatting. -/
def digitChar : Nat → Char
  | 0 => '0' | 1 => '1' | 2 => '2' | 3 => '3' | 4 => '4'
  | 5 => '5' | 6 => '6' | 7 => '7' | 8 => '8' | _ => '9'

/-- Lowercase hexadecimal digit character, as emitted by `JSON.stringify`
for control-character escapes. -/
def hexDigitChar (n : Nat) : Char :=
  if n < 10 then digitChar n
  else if n = 10 then 'a' else if n = 11 then 'b' else if n = 12 then 'c'
  else if n = 13 then 'd' else if n = 14 then 'e' else 'f'

/-- Decimal digit expansion of a natural number (most significant first),
as produced by JavaScript number-to-string conversion. -/
def natDigits (n : Nat) : List Char :=
  if _h : n < 10 then [digitChar n]
  else natDigits (n / 10) ++ [digitChar (n % 10)]
termination_by n
decreasing_by exact Nat.div_lt_self (by omega) (by omega)

/-- Character expansion of an integer, as produced by JavaScript
number-to-string conversion (`-` followed by the decimal digits when
negative). -/
def intChars : Int → List Char
  | Int.ofNat n => natDigits n
  | Int.negSucc m => '-' :: natDigits (m + 1)

/-- Escape of one string character as performed by `JSON.stringify`:
quote and backslash are backslash-escaped, the named control characters use
their short escapes, the remaining control characters use a `\u00XX` escape,
and every other character is passed through. -/
def escChar (c : Char) : List Char :=
  if c = '"' then ['\\', '"']
  else if c = '\\' then ['\\', '\\']
  else if c = '\x08' then ['\\', 'b']
  else if c = '\t' then ['\\', 't']
  else if c = '\n' then ['\\', 'n']
  else if c = '\x0c' then ['\\', 'f']
  else if c = '\r' then ['\\', 'r']
  else if c.toNat < 32 then
    ['\\', 'u', '0', '0', hexDigitChar (c.toNat / 16), hexDigitChar (c.toNat % 16)]
  else [c]

/-- Escaped body of a string literal under a character-escape function. -/
def escBody (esc : Char → List Char) (s : List Char) : List Char :=
  (s.map esc).flatten

/-- Quoted JSON string literal under a character-escape function. -/
def quoteChars (esc : Char → List Char) (s : List Char) : List Char :=
  '"' :: escBody esc s ++ ['"']

mutual

/-- Model of `JSON.stringify` on a `Json` value, parameterized by the
string-character escape (plain `escChar` for the bare builtin). -/
def stringifyVal (esc : Char → List Char) : Json → List Char
  | .null => ['n', 'u', 'l', 'l']
  | .bool b => if b then ['t', 'r', 'u', 'e'] else ['f', 'a', 'l', 's', 'e']
  | .num n => intChars n
  | .str s => quoteChars esc s
  | .arr [] => ['[', ']']
  | .arr (x :: xs) => '[' :: (stringifyVal esc x ++ stringifyElems esc xs ++ [']'])
  | .obj [] => [obrace, cbrace]
  | .obj (f :: fs) => obrace :: (stringifyField esc f ++ stringifyFields esc fs ++ [cbrace])

/-- Comma-prefixed tail elements of a stringified JSON array. -/
def stringifyElems (esc : Char → List Char) : List Json → List Char
  | [] => []
  | x :: xs => ',' :: (stringifyVal esc x ++ stringifyElems esc xs)

/-- One stringified JSON object member, `"key":value`. -/
def stringifyField (esc : Char → List Char) : List Char × Json → List Char
  | (k, v) => quoteChars esc k ++ ':' :: stringifyVal esc v

/-- Comma-prefixed tail members of a stringified JSON object. -/
def stringifyFields (esc : Char → List Char) : List (List Char × Json) → List Char
  | [] => []
  | f :: fs => ',' :: (stringifyField esc f ++ stringifyFields esc fs)

end

/-- The global replacement performed by
`JSON.stringify(content).replace(/</g, "\\u003c")` in `serializeContent`
(server/utils.ts): every left angle bracket in the serialized text is
replaced by the six-character sequence `\u003c`. -/
def escapeLt : List Char → List Char
  | [] => []
  | c :: cs => (if c = '<' then ['\\', 'u', '0', '0', '3', 'c'] else [c]) ++ escapeLt cs

/-- Embedding of `serializeContent` (server/utils.ts): serialize the payload
with `JSON.stringify` and escape every `<` as `\u003c`. -/
def serializeContent (content : Json) : List Char :=
  escapeLt (stringifyVal escChar content)

/-- Decoded character of a single-letter JSON string escape (`\"`, `\\`,
`\/`, `\b`, `\f`, `\n`, `\r`, `\t`), as accepted by `JSON.parse`. -/
def escDecode (e : Char) : Option Char :=
  if e = '"' then some '"'
  else if e = '\\' then some '\\'
  else if e = '/' then some '/'
  else if e = 'b' then some '\x08'
  else if e = 'f' then some '\x0c'
  else if e = 'n' then some '\n'
  else if e = 'r' then some '\r'
  else if e = 't' then some '\t'
  else none

/-- Numeric value of a hexadecimal digit character (either case), as read by
`JSON.parse` inside a `\uXXXX` escape. -/
def hexVal (c : Char) : Option Nat :=
  if 48 ≤ c.toNat ∧ c.toNat ≤ 57 then some (c.toNat - 48)
  else if 97 ≤ c.toNat ∧ c.toNat ≤ 102 then some (c.toNat - 87)
  else if 65 ≤ c.toNat ∧ c.toNat ≤ 70 then some (c.toNat - 55)
  else none

/-- Model of the `JSON.parse` string-literal scanner, reading the body of a
string after its opening quote: returns the decoded characters and the
remaining input after the closing quote.  `fuel` bounds the recursion; one
unit is spent per decoded character, so any fuel beyond the escaped body
length suffices. -/
def parseStringBody : Nat → List Char → Option (List Char × List Char)
  | 0, _ => none
  | _ + 1, [] => none
  | fuel + 1, c :: rest =>
    if c = '"' then some ([], rest)
    else if c = '\\' then
      match rest with
      | [] => none
      | e :: rest2 =>
        if e = 'u' then
          match rest2 with
          | h1 :: h2 :: h3 :: h4 :: rest3 =>
            match hexVal h1, hexVal h2, hexVal h3, hexVal h4 with
            | some a, some b, some c2, some d =>
              (parseStringBody fuel rest3).map
                (fun pr => (Char.ofNat (((a * 16 + b) * 16 + c2) * 16 + d) :: pr.1, pr.2))
            | _, _, _, _ => none
          | _ => none
        else
          match escDecode e with
          | some d => (parseStringBody fuel rest2).map (fun pr => (d :: pr.1, pr.2))
          | none => none
    else if c.toNat < 32 then none
    else (parseStringBody fuel rest).map (fun pr => (c :: pr.1, pr.2))

/-- Test for a decimal digit character by code point. -/
def isDigitChar (c : Char) : Bool := 48 ≤ c.toNat && c.toNat ≤ 57

/-- Value of one decimal digit character. -/
def digitVal (c : Char) : Nat := c.toNat - 48

/-- Model of the `JSON.parse` number scanner restricted to the decimal
integer literals that the stringifier emits: consume the maximal digit run
and fold it into a natural number. -/
def parseNatChars (s : List Char) : Option (Nat × List Char) :=
  let ds := s.takeWhile isDigitChar
  if ds.isEmpty then none
  else some (ds.foldl (fun a c => a * 10 + digitVal c) 0, s.dropWhile isDigitChar)

mutual

/-- Model of the `JSON.parse` value scanner on whitespace-free input:
dispatches on the first character to the literal, string, number, array or
object production and returns the parsed value with the remaining input.
`fuel` bounds the nesting recursion (one unit per value or separator
layer). -/
def parseVal : Nat → List Char → Option (Json × List Char)
  | 0, _ => none
  | _ + 1, [] => none
  | fuel + 1, c :: cs =>
    if c = 'n' then
      match cs with
      | 'u' :: 'l' :: 'l' :: r => some (.null, r)
      | _ => none
    else if c = 't' then
      match cs with
      | 'r' :: 'u' :: 'e' :: r => some (.bool true, r)
      | _ => none
    else if c = 'f' then
      match cs with
      | 'a' :: 'l' :: 's' :: 'e' :: r => some (.bool false, r)
      | _ => none
    else if c = '"' then
      (parseStringBody cs.length cs).map (fun pr => (.str pr.1, pr.2))
    else if c = '[' then
      if cs.head? = some ']' then some (.arr [], cs.tail)
      else (parseElems fuel cs).map (fun pr => (.arr pr.1, pr.2))
    else if c = obrace then
      if cs.head? = some cbrace then some (.obj [], cs.tail)
      else (parseFields fuel cs).map (fun pr => (.obj pr.1, pr.2))
    else if c = '-' then
      (parseNatChars cs).map (fun pr => (.num (-(pr.1 : Int)), pr.2))
    else if isDigitChar c then
      (parseNatChars (c :: cs)).map (fun pr => (.num (pr.1 : Int), pr.2))
    else none

/-- Scanner for the element list of a non-empty JSON array (after the
opening bracket): one value, then either a comma and further elements or the
closing bracket. -/
def parseElems : Nat → List Char → Option (List Json × List Char)
  | 0, _ => none
  | fuel + 1, s =>
    match parseVal fuel s with
    | none => none
    | some (v, rest) =>
      match rest with
      | [] => none
      | c :: more =>
        if c = ',' then (parseElems fuel more).map (fun pr => (v :: pr.1, pr.2))
        else if c = ']' then some ([v], more)
        else none

/-- Scanner for the member list of a non-empty JSON object (after the
opening brace): a quoted key, a colon, a value, then either a comma and
further members or the closing brace. -/
def parseFields : Nat → List Char → Option (List (List Char × Json) × List Char)
  | 0, _ => none
  | fuel + 1, s =>
    match s with
    | '"' :: cs =>
      match parseStringBody cs.length cs with
      | none => none
      | some (k, rest) =>
        match rest with
        | ':' :: rest2 =>
          match parseVal fuel rest2 with
          | none => none
          | some (v, rest3) =>
            match rest3 with
            | [] => none
            | c :: more =>
              if c = ',' then (parseFields fuel more).map (fun pr => ((k, v) :: pr.1, pr.2))
              else if c = cbrace then some ([(k, v)], more)
              else none
        | _ => none
    | _ => none

end

/-- Model of `JSON.parse` on whitespace-free input: scan one value and
require the input to be exhausted.  The initial fuel `s.length + 1` dominates
the nesting depth of any value serialized into `s`. -/
def parseJson (s : List Char) : Option Json :=
  match parseVal (s.length + 1) s with
  | some (v, []) => some v
  | _ => none

mutual

/-- Fuel needed by `parseVal` to scan the serialization of a value. -/
def need : Json → Nat
  | .arr xs => 1 + needElems xs
  | .obj fs => 1 + needFields fs
  | _ => 1

/-- Fuel needed by `parseElems` to scan serialized array elements. -/
def needElems : List Json → Nat
  | [] => 0
  | x :: xs => 1 + max (need x) (needElems xs)

/-- Fuel needed by `parseFields` to scan serialized object members. -/
def needFields : List (List Char × Json) → Nat
  | [] => 0
  | f :: fs => 1 + max (need f.2) (needFields fs)

end


/-- Character escape obtained by composing the stringifier escape with the
angle-bracket replacement of `serializeContent`: identical to `escChar`
except that `<` becomes the six-character sequence `\u003c`. -/
def escCharLt (c : Char) : List Char :=
  if c = '<' then ['\\', 'u', '0', '0', '3', 'c'] else escChar c

/-- An escape function is parser-compatible when the string scanner decodes
each escaped character back, spending one unit of fuel, and continues on the
remaining input. -/
def EscStep (esc : Char → List Char) : Prop :=
  ∀ (c : Char) (fuel : Nat) (rest : List Char),
    parseStringBody (fuel + 1) (esc c ++ rest) =
      (parseStringBody fuel rest).map (fun pr => (c :: pr.1, pr.2))

/-- Property of a remaining input that does not begin with a decimal digit
(so that a preceding number literal cannot absorb it). -/
def NoDigitStart : List Char → Prop
  | [] => True
  | c :: _ => isDigitChar c = false

/-- Embedding of `getSlugFromUrl` (server/utils.ts):
`url.split("?")[0] || "/"` — the characters before the first `?`, with the
JavaScript `||` falling back to the root path when that segment is empty. -/
def getSlugFromUrl (url : List Char) : List Char :=
  let first := url.takeWhile (fun c => c != '?')
  if first.isEmpty then ['/'] else first

/-- Content payload model: the fields of the `page` content type that the
resolver reads (`uid` identifies the entry; `url` is the routing field and
is optional in the source interface). -/
structure Page where
  uid : List Char
  title : List Char
  url : Option (List Char)
deriving DecidableEq

/-- Outcome of one provider query (the Contentstack `find` call of
`fetchPageBySlug`): either a response whose `entries` array may be absent
(`none`, modelling malformed data) or present, or a thrown provider error
(network failure etc.). -/
inductive ProviderResult where
  | ok (entries : Option (List Page)) : ProviderResult
  | failure (msg : List Char) : ProviderResult

/-- Embedding of the `try` block of `fetchPageBySlug`
(src/api/contentstack.ts): run the provider query for the slug; a provider
failure propagates as an exception; otherwise `result.entries?.[0] ?? null`
is the first entry or null.  `addEditableTags` returns its entry argument
(it only annotates fields in preview mode), so it is the identity here. -/
def fetchPageBySlugE (provider : List Char → ProviderResult) (slug : List Char) :
    Except (List Char) (Option Page) :=
  match provider slug with
  | .failure e => .error e
  | .ok none => .ok none
  | .ok (some entries) => .ok entries.head?

/-- Embedding of `fetchPageBySlug` (src/api/contentstack.ts): the
`try`/`catch` wrapper — any thrown provider error is caught, logged, and
normalized to `null`. -/
def fetchPageBySlug (provider : List Char → ProviderResult) (slug : List Char) :
    Option Page :=
  match fetchPageBySlugE provider slug with
  | .ok v => v
  | .error _ => none

/-- Composition performed by the catch-all SSR route of server/index.ts:
strip the query component from the request URL with `getSlugFromUrl`, then
resolve content with `fetchPageBySlug`. -/
def resolveBySlug (provider : List Char → ProviderResult) (url : List Char) :
    Option Page :=
  fetchPageBySlug provider (getSlugFromUrl url)

/-- A request path assembled from a base path and an optional query
component (`none` = no query marker at all). -/
def withQuery (base : List Char) : Option (List Char) → List Char
  | none => base
  | some q => base ++ '?' :: q

/-- One entry of the Vite build manifest, as consumed by
`generateAssetTags` (server/index.ts): output file, optional CSS file list,
optional direct import key list. -/
structure ManifestEntry where
  file : List Char
  css : Option (List (List Char))
  imports : Option (List (List Char))
deriving DecidableEq

/-- The build manifest: a mapping from entry key to manifest entry. -/
def Manifest : Type := List Char → Option ManifestEntry

/-- Kind of an emitted asset reference. -/
inductive TagKind where
  | stylesheet : TagKind
  | modulepreload : TagKind
  | module : TagKind
deriving DecidableEq

/-- One emitted asset tag.  The `crossorigin` field records whether the tag
template in server/index.ts carries the `crossorigin` attribute (all three
templates write it literally). -/
structure AssetTag where
  kind : TagKind
  href : List Char
  crossorigin : Bool
deriving DecidableEq

/-- Embedding of `buildAssetUrl` (server/index.ts): ensure a leading slash,
then attach the configured asset base URL when it is non-empty (JavaScript
truthiness of the string). -/
def buildAssetUrl (assetBaseUrl : List Char) (assetPath : List Char) : List Char :=
  let cleanPath := if assetPath.head? = some '/' then assetPath else '/' :: assetPath
  if assetBaseUrl.isEmpty then cleanPath else assetBaseUrl ++ cleanPath

/-- Embedding of `getFileName` (server/index.ts):
`path.split('/').pop() || path` — the last slash-separated segment, falling
back to the whole path when that segment is empty. -/
def getFileName (path : List Char) : List Char :=
  let seg := (path.reverse.takeWhile (fun c => c != '/')).reverse
  if seg.isEmpty then path else seg

/-- The stylesheet link tag emitted for one CSS file (its template carries
the `crossorigin` attribute literally). -/
def stylesheetTag (base cssFile : List Char) : AssetTag :=
  { kind := TagKind.stylesheet,
    href := buildAssetUrl base ("/assets/".toList ++ getFileName cssFile),
    crossorigin := true }

/-- The modulepreload link tag emitted for one resolved import file. -/
def preloadTag (base file : List Char) : AssetTag :=
  { kind := TagKind.modulepreload,
    href := buildAssetUrl base ("/assets/".toList ++ getFileName file),
    crossorigin := true }

/-- The module script tag emitted for the entry's own output file. -/
def moduleTag (base file : List Char) : AssetTag :=
  { kind := TagKind.module,
    href := buildAssetUrl base ("/assets/".toList ++ getFileName file),
    crossorigin := true }

/-- One step of the import loop of `generateAssetTags`: skip already
processed keys, record the key as processed, and push a modulepreload tag
when the key resolves to a manifest entry with a non-empty output file
(`if (importEntry?.file)` in the source). -/
def importStep (manifest : Manifest) (assetBaseUrl : List Char)
    (st : List AssetTag × List (List Char)) (importKey : List Char) :
    List AssetTag × List (List Char) :=
  if importKey ∈ st.2 then st
  else
    let seen := importKey :: st.2
    match manifest importKey with
    | some importEntry =>
      if importEntry.file.isEmpty then (st.1, seen)
      else (st.1 ++ [preloadTag assetBaseUrl importEntry.file], seen)
    | none => (st.1, seen)

/-- Embedding of `generateAssetTags` (server/index.ts), with the `tags`
array as a left fold accumulator mirroring `tags.push`: entry lookup (throw
when absent), one stylesheet tag per CSS file, one modulepreload tag per
not-yet-processed import whose manifest entry has a non-empty output file
(`processedImports` is the `seen` component of the fold state), and finally
the module tag for the entry's own file. -/
def generateAssetTags (assetBaseUrl : List Char) (manifest : Manifest)
    (entryKey : List Char) : Except (List Char) (List AssetTag) :=
  match manifest entryKey with
  | none => .error ("Entry not found in manifest".toList)
  | some entry =>
    let tags1 := (entry.css.getD []).foldl
      (fun acc cssFile => acc ++ [stylesheetTag assetBaseUrl cssFile]) []
    let st := (entry.imports.getD []).foldl (importStep manifest assetBaseUrl) (tags1, [])
    .ok (st.1 ++ [moduleTag assetBaseUrl entry.file])

/-- Declarative form of the modulepreload segment: one preload tag per not
yet seen import key whose manifest entry has a non-empty output file, in
import-list order, deduplicated by first occurrence. -/
def preloads (manifest : Manifest) (base : List Char) :
    List (List Char) → List (List Char) → List AssetTag
  | [], _ => []
  | k :: rest, seen =>
    if k ∈ seen then preloads manifest base rest seen
    else
      match manifest k with
      | some ie =>
        if ie.file.isEmpty then preloads manifest base rest (k :: seen)
        else preloadTag base ie.file :: preloads manifest base rest (k :: seen)
      | none => preloads manifest base rest (k :: seen)

/-- One pending content fetch of the hydration synchronizer: `target` is
the pathname captured by the `fetchContent` closure that issued it. -/
structure PendingFetch where
  target : List Char
deriving DecidableEq

/-- Client-side state of the `useLivePreview` hook (the spec's
HydrationState): current payload, current pathname, the `initialPath` ref,
the live-preview initialization and readiness flags, the pathname captured
by the `onEntryChange` callback registered at mount, the pending fetches,
and a counter of fetches issued. -/
structure ClientState where
  page : Option Page
  pathname : List Char
  initialPath : List Char
  lpInited : Bool
  lpReady : Bool
  mountPath : List Char
  pending : List PendingFetch
  fetchCount : Nat
deriving DecidableEq

/-- Events observed by the hydration synchronizer: a route change (the
route effect re-runs with the new pathname), the 200 ms live-preview setup
timer firing (`initLivePreview` plus `onEntryChange` registration), the
inner 100 ms readiness timer firing, an external content-change
notification delivered to the registered callback, and the resolution of
the i-th pending fetch (its `setPage` commit). -/
inductive ClientEvent where
  | navigate (p : List Char) : ClientEvent
  | lpInitTimer : ClientEvent
  | lpReadyTimer : ClientEvent
  | notify : ClientEvent
  | resolve (i : Nat) : ClientEvent

/-- Initial client state: seeded with the embedded payload and the initial
pathname (the `useState`/`useRef` initializers of `useLivePreview`). -/
def initState (initialContent : Option Page) (path0 : List Char) : ClientState :=
  { page := initialContent, pathname := path0, initialPath := path0,
    lpInited := false, lpReady := false, mountPath := path0,
    pending := [], fetchCount := 0 }

/-- Transition function of the hydration synchronizer, embedded from
`useLivePreview` (src/hooks/useLivePreview.ts):

* `navigate p` — the pathname becomes `p` and the route effect runs: if the
  new pathname equals the `initialPath` ref it returns without fetching;
  otherwise it updates the ref and issues a fetch for the new pathname.
* `lpInitTimer` — in preview mode the setup timer initializes live preview
  and registers the notification callback (it runs once).
* `lpReadyTimer` — the readiness flag is set (the inner timer is scheduled
  only by the setup timer, hence guarded on initialization).
* `notify` — the registered callback runs
  `livePreviewReady.current && fetchContent()`: a fetch is issued only when
  the channel is registered and ready, and otherwise the state is left
  entirely unchanged (nothing is queued); the issued fetch targets the
  pathname captured by the callback's closure (the mount pathname).
* `resolve i` — the i-th pending fetch resolves with the provider content
  for its target and `setPage` commits it unconditionally.

`provider` gives the content that `fetchPageBySlug` resolves for a path. -/
def step (preview : Bool) (provider : List Char → Option Page)
    (s : ClientState) : ClientEvent → ClientState
  | .navigate p =>
    let s1 := { s with pathname := p }
    if p = s.initialPath then s1
    else
      { s1 with initialPath := p,
                pending := s1.pending ++ [⟨p⟩],
                fetchCount := s1.fetchCount + 1 }
  | .lpInitTimer =>
    if preview ∧ ¬s.lpInited then { s with lpInited := true } else s
  | .lpReadyTimer =>
    if s.lpInited then { s with lpReady := true } else s
  | .notify =>
    if s.lpInited ∧ s.lpReady then
      { s with pending := s.pending ++ [⟨s.mountPath⟩],
               fetchCount := s.fetchCount + 1 }
    else s
  | .resolve i =>
    match s.pending.get? i with
    | none => s
    | some f =>
      { s with page := provider f.target, pending := s.pending.eraseIdx i }

/-- Run of the hydration synchronizer over a sequence of events. -/
def runTrace (preview : Bool) (provider : List Char → Option Page)
    (s : ClientState) (events : List ClientEvent) : ClientState :=
  events.foldl (step preview provider) s

/-- Global browser state seen by the client entry module
(src/entry-client.tsx): whether the fragment root container exists, the
`window.__HYDRATED__` flag (an absent property reads as false), and a count
of `hydrateRoot` calls performed. -/
structure WindowState where
  hasContainer : Bool
  hydrated : Bool
  hydrations : Nat
deriving DecidableEq

/-- Embedding of the entry-client hydration guard: hydrate only when the
container exists and the hydrated flag is unset; the flag is set in the
same guarded block, before `hydrateRoot` runs. -/
def runEntryClient (w : WindowState) : WindowState :=
  if w.hasContainer = true ∧ w.hydrated = false then
    { w with hydrated := true, hydrations := w.hydrations + 1 }
  else w

/-- Concrete payload for the page at `/a` (used in concrete runs). -/
def pageA : Page := { uid := "uidA".toList, title := "Title A".toList, url := some "/a".toList }

/-- Concrete payload for the page at `/b` (used in concrete runs). -/
def pageB : Page := { uid := "uidB".toList, title := "Title B".toList, url := some "/b".toList }

/-- Concrete content provider: `/a` resolves to `pageA`, `/b` to `pageB`. -/
def abProvider : List Char → Option Page := fun p =>
  if p = "/a".toList then some pageA
  else if p = "/b".toList then some pageB
  else none

/-- Concrete event trace exhibiting the stale-fetch race: navigate away to
`/b`, navigate back to `/a`, then the fetch for `/a` resolves first and the
older fetch for the abandoned path `/b` resolves last. -/
def staleTrace : List ClientEvent :=
  [ClientEvent.navigate "/b".toList, ClientEvent.navigate "/a".toList,
   ClientEvent.resolve 1, ClientEvent.resolve 0]

/-- Concrete manifest entry with two CSS files and one import. -/
def exEntry : ManifestEntry :=
  { file := "assets/entry-client-abc123.js".toList,
    css := some ["assets/entry-client-def456.css".toList, "assets/extra-789.css".toList],
    imports := some ["_dep-chunk.js".toList] }

/-- Concrete manifest: the client entry plus one resolvable import chunk. -/
def exManifest : Manifest := fun k =>
  if k = "src/entry-client.tsx".toList then some exEntry
  else if k = "_dep-chunk.js".toList then
    some { file := "assets/dep-chunk-xyz.js".toList, css := none, imports := none }
  else none

/-- The tag list that `generateAssetTags` emits for `exManifest`. -/
def exTags : List AssetTag :=
  (exEntry.css.getD []).map (stylesheetTag []) ++
    preloads exManifest [] (exEntry.imports.getD []) [] ++
    [moduleTag [] exEntry.file]

/-- The hexadecimal digit printer and reader invert each other. -/
theorem hexVal_hexDigitChar : ∀ d : Nat, d < 16 → hexVal (hexDigitChar d) = some d := by
  decide

/-- Decimal digit characters satisfy the digit test and carry their value. -/
theorem digitChar_spec : ∀ d : Nat, d < 10 →
    isDigitChar (digitChar d) = true ∧ digitVal (digitChar d) = d := by
  decide

/-- The decimal expansion of a natural number is never empty. -/
theorem natDigits_ne_nil (n : Nat) : natDigits n ≠ [] := by
  rw [natDigits]
  by_cases hn : n < 10
  · rw [dif_pos hn]; simp
  · rw [dif_neg hn]; simp

/-- Every character of a decimal expansion is a digit. -/
theorem natDigits_all_digit (n : Nat) : ∀ c ∈ natDigits n, isDigitChar c = true := by
  induction n using Nat.strong_induction_on with
  | _ n ih =>
    rw [natDigits]
    by_cases hn : n < 10
    · rw [dif_pos hn]
      intro c hc
      rw [List.mem_singleton] at hc
      subst hc
      exact (digitChar_spec n hn).1
    · rw [dif_neg hn]
      intro c hc
      rcases List.mem_append.mp hc with h | h
      · exact ih (n / 10) (Nat.div_lt_self (by omega) (by omega)) c h
      · rw [List.mem_singleton] at h
        subst h
        exact (digitChar_spec (n % 10) (by omega)).1

/-- Folding the digit-accumulation step over a decimal expansion recovers
the number (shifted past any previously accumulated value). -/
theorem foldl_natDigits (n : Nat) : ∀ acc : Nat,
    (natDigits n).foldl (fun a c => a * 10 + digitVal c) acc =
      acc * 10 ^ (natDigits n).length + n := by
  induction n using Nat.strong_induction_on with
  | _ n ih =>
    intro acc
    rw [natDigits]
    by_cases hn : n < 10
    · rw [dif_pos hn]
      simp [List.foldl, (digitChar_spec n hn).2]
    · rw [dif_neg hn]
      rw [List.foldl_append, ih (n / 10) (Nat.div_lt_self (by omega) (by omega)) acc]
      simp only [List.foldl, List.length_append, List.length_singleton,
        (digitChar_spec (n % 10) (by omega)).2]
      rw [pow_succ]
      generalize (10 : Nat) ^ (natDigits (n / 10)).length = K
      ring_nf
      omega

/-- A run of characters satisfying the predicate passes through `takeWhile`
unchanged. -/
theorem takeWhile_append_all {p : Char → Bool} (l r : List Char)
    (h : ∀ c ∈ l, p c = true) : (l ++ r).takeWhile p = l ++ r.takeWhile p := by
  induction l with
  | nil => simp
  | cons c cs ih =>
    rw [List.cons_append, List.takeWhile_cons, if_pos (h c (by simp)), ih]
    · rfl
    · exact fun d hd => h d (by simp [hd])

/-- A run of characters satisfying the predicate is discarded whole by
`dropWhile`. -/
theorem dropWhile_append_all {p : Char → Bool} (l r : List Char)
    (h : ∀ c ∈ l, p c = true) : (l ++ r).dropWhile p = r.dropWhile p := by
  induction l with
  | nil => simp
  | cons c cs ih =>
    rw [List.cons_append, List.dropWhile_cons, if_pos (h c (by simp)), ih]
    exact fun d hd => h d (by simp [hd])

/-- On input whose head is not a digit, `takeWhile` takes nothing. -/
theorem takeWhile_noDigit (r : List Char) (hr : NoDigitStart r) :
    r.takeWhile isDigitChar = [] := by
  cases r with
  | nil => rfl
  | cons c cs =>
    rw [List.takeWhile_cons, if_neg]
    simp only [NoDigitStart] at hr
    simp [hr]

/-- On input whose head is not a digit, `dropWhile` drops nothing. -/
theorem dropWhile_noDigit (r : List Char) (hr : NoDigitStart r) :
    r.dropWhile isDigitChar = r := by
  cases r with
  | nil => rfl
  | cons c cs =>
    rw [List.dropWhile_cons, if_neg]
    simp only [NoDigitStart] at hr
    simp [hr]

/-- Reading the decimal expansion of `n` followed by non-digit input yields
exactly `n` and leaves that input. -/
theorem parseNatChars_natDigits (n : Nat) (rest : List Char) (hr : NoDigitStart rest) :
    parseNatChars (natDigits n ++ rest) = some (n, rest) := by
  unfold parseNatChars
  rw [takeWhile_append_all _ _ (natDigits_all_digit n), takeWhile_noDigit rest hr,
    List.append_nil, dropWhile_append_all _ _ (natDigits_all_digit n),
    dropWhile_noDigit rest hr]
  rw [if_neg (by simp [List.isEmpty_iff, natDigits_ne_nil n])]
  rw [foldl_natDigits n 0]
  simp

/-- The stringifier escape is parser-compatible: the string scanner decodes
each group `escChar c` back to `c`. -/
theorem escStep_escChar : EscStep escChar := by
  intro c fuel rest
  by_cases h1 : c = '"'
  · subst h1; simp [escChar, parseStringBody, escDecode]
  by_cases h2 : c = '\\'
  · subst h2; simp [escChar, parseStringBody, escDecode]
  by_cases h3 : c = '\x08'
  · subst h3; simp [escChar, parseStringBody, escDecode]
  by_cases h4 : c = '\t'
  · subst h4; simp [escChar, parseStringBody, escDecode]
  by_cases h5 : c = '\n'
  · subst h5; simp [escChar, parseStringBody, escDecode]
  by_cases h6 : c = '\x0c'
  · subst h6; simp [escChar, parseStringBody, escDecode]
  by_cases h7 : c = '\r'
  · subst h7; simp [escChar, parseStringBody, escDecode]
  by_cases h8 : c.toNat < 32
  · have h0 : hexVal '0' = some 0 := by decide
    have hd : hexVal (hexDigitChar (c.toNat / 16)) = some (c.toNat / 16) :=
      hexVal_hexDigitChar _ (by omega)
    have hm : hexVal (hexDigitChar (c.toNat % 16)) = some (c.toNat % 16) :=
      hexVal_hexDigitChar _ (by omega)
    have hv : c.toNat / 16 * 16 + c.toNat % 16 = c.toNat := Nat.div_add_mod' _ _
    simp [escChar, h1, h2, h3, h4, h5, h6, h7, h8, parseStringBody, h0, hd, hm,
      hv, Char.ofNat_toNat]
  · simp [escChar, h1, h2, h3, h4, h5, h6, h7, h8, parseStringBody]

/-- The escape used by `serializeContent` (stringifier escape followed by the
angle-bracket replacement) is parser-compatible: in particular `<`
decodes back to `<`. -/
theorem escStep_escCharLt : EscStep escCharLt := by
  intro c fuel rest
  by_cases hlt : c = '<'
  · subst hlt
    have h0 : hexVal '0' = some 0 := by decide
    have h3 : hexVal '3' = some 3 := by decide
    have hc : hexVal 'c' = some 12 := by decide
    simp [escCharLt, parseStringBody, h0, h3, hc,
      show Char.ofNat 60 = '<' from by decide]
  · rw [escCharLt, if_neg hlt]
    exact escStep_escChar c fuel rest

/-- The string scanner inverts the quoted-string printer: reading the escaped
body followed by the closing quote recovers the source characters, for any
parser-compatible escape, given fuel beyond the source length. -/
theorem parseStringBody_escBody {esc : Char → List Char} (hesc : EscStep esc)
    (s : List Char) : ∀ (fuel : Nat) (rest : List Char), s.length + 1 ≤ fuel →
    parseStringBody fuel (escBody esc s ++ '"' :: rest) = some (s, rest) := by
  induction s with
  | nil =>
    intro fuel rest h
    cases fuel with
    | zero => omega
    | succ f => simp [escBody, parseStringBody]
  | cons c cs ih =>
    intro fuel rest h
    cases fuel with
    | zero => omega
    | succ f =>
      have hb : escBody esc (c :: cs) ++ '"' :: rest =
          esc c ++ (escBody esc cs ++ '"' :: rest) := by
        simp [escBody]
      rw [hb, hesc c f _, ih f rest (by simp at h; omega)]
      rfl

/-- Every escape group of the stringifier escape is non-empty. -/
theorem escChar_len (c : Char) : 1 ≤ (escChar c).length := by
  unfold escChar
  split_ifs <;> simp

/-- Every escape group of the replacement-composed escape is non-empty. -/
theorem escCharLt_len (c : Char) : 1 ≤ (escCharLt c).length := by
  unfold escCharLt
  split_ifs
  · simp
  · exact escChar_len c

/-- An escaped string body is at least as long as its source. -/
theorem escBody_len {esc : Char → List Char} (hlen : ∀ c, 1 ≤ (esc c).length)
    (s : List Char) : s.length ≤ (escBody esc s).length := by
  induction s with
  | nil => simp [escBody]
  | cons c cs ih =>
    simp only [escBody, List.map_cons, List.flatten_cons, List.length_append,
      List.length_cons] at *
    have := hlen c
    omega

/-- Need of a value is at least one unit of fuel. -/
theorem need_pos (v : Json) : 1 ≤ need v := by
  cases v <;> simp [need]

/-- A digit-headed input satisfies none of the other `parseVal` dispatch
conditions. -/
theorem digit_head_dispatch {c : Char} (hc : isDigitChar c = true) :
    c ≠ 'n' ∧ c ≠ 't' ∧ c ≠ 'f' ∧ c ≠ '"' ∧ c ≠ '[' ∧ c ≠ obrace ∧ c ≠ '-' := by
  simp only [isDigitChar, decide_eq_true_eq, Bool.and_eq_true] at hc
  refine ⟨?_, ?_, ?_, ?_, ?_, ?_, ?_⟩ <;>
    (intro h; subst h; revert hc; decide)

/-- The serialization of any value begins with a character other than the
array terminator. -/
theorem stringify_head (esc : Char → List Char) (v : Json) :
    ∃ c t, stringifyVal esc v = c :: t ∧ c ≠ ']' := by
  cases v with
  | null => exact ⟨'n', _, rfl, by decide⟩
  | bool b =>
    cases b
    · exact ⟨'f', _, rfl, by decide⟩
    · exact ⟨'t', _, rfl, by decide⟩
  | num n =>
    cases n with
    | ofNat m =>
      obtain ⟨c, t, h⟩ := List.exists_cons_of_ne_nil (natDigits_ne_nil m)
      refine ⟨c, t, by simpa [stringifyVal, intChars] using h, ?_⟩
      have hd := natDigits_all_digit m c (by rw [h]; simp)
      simp only [isDigitChar, decide_eq_true_eq, Bool.and_eq_true] at hd
      intro he; subst he; revert hd; decide
    | negSucc m => exact ⟨'-', _, rfl, by decide⟩
  | str s => exact ⟨'"', _, rfl, by decide⟩
  | arr xs =>
    cases xs
    · exact ⟨'[', _, rfl, by decide⟩
    · exact ⟨'[', _, rfl, by decide⟩
  | obj fs =>
    cases fs
    · exact ⟨obrace, _, rfl, by decide⟩
    · exact ⟨obrace, _, rfl, by decide⟩

/-- Dispatch of the value scanner on a quote-headed input. -/
theorem parseVal_succ_str (f : Nat) (cs : List Char) :
    parseVal (f + 1) ('"' :: cs) =
      (parseStringBody cs.length cs).map (fun pr => (Json.str pr.1, pr.2)) := by
  simp [parseVal]

/-- Dispatch of the value scanner on a minus-headed input. -/
theorem parseVal_succ_neg (f : Nat) (cs : List Char) :
    parseVal (f + 1) ('-' :: cs) =
      (parseNatChars cs).map (fun pr => (Json.num (-(pr.1 : Int)), pr.2)) := by
  simp [parseVal, obrace]

/-- Dispatch of the value scanner on a bracket-headed input. -/
theorem parseVal_succ_arr (f : Nat) (cs : List Char) :
    parseVal (f + 1) ('[' :: cs) =
      (if cs.head? = some ']' then some (Json.arr [], cs.tail)
       else (parseElems f cs).map (fun pr => (Json.arr pr.1, pr.2))) := by
  simp [parseVal]

/-- Dispatch of the value scanner on a brace-headed input. -/
theorem parseVal_succ_obj (f : Nat) (cs : List Char) :
    parseVal (f + 1) (obrace :: cs) =
      (if cs.head? = some cbrace then some (Json.obj [], cs.tail)
       else (parseFields f cs).map (fun pr => (Json.obj pr.1, pr.2))) := by
  simp [parseVal, obrace]

/-- Dispatch of the value scanner on a digit-headed input. -/
theorem parseVal_succ_digit (f : Nat) (c : Char) (cs : List Char)
    (hc : isDigitChar c = true) :
    parseVal (f + 1) (c :: cs) =
      (parseNatChars (c :: cs)).map (fun pr => (Json.num (pr.1 : Int), pr.2)) := by
  have hds := digit_head_dispatch hc
  simp [parseVal, hds.1, hds.2.1, hds.2.2.1, hds.2.2.2.1, hds.2.2.2.2.1,
    hds.2.2.2.2.2.1, hds.2.2.2.2.2.2, hc]

/-- Every JSON value has positive size. -/
theorem json_sizeOf_pos (v : Json) : 1 ≤ sizeOf v := by
  cases v <;> simp

/-- Every list has positive size. -/
theorem list_sizeOf_pos {α : Type} [SizeOf α] (l : List α) : 1 ≤ sizeOf l := by
  cases l with
  | nil => simp
  | cons h t => simp; omega

/-- Main round-trip induction: the value, element and member scanners invert
the corresponding printers, for any parser-compatible escape, sufficient
fuel, and values of size bounded by `N`. -/
theorem parse_stringify_all (N : Nat) {esc : Char → List Char} (hesc : EscStep esc)
    (hlen : ∀ c, 1 ≤ (esc c).length) :
    (∀ (v : Json) (fuel : Nat) (rest : List Char), sizeOf v ≤ N → need v ≤ fuel →
      NoDigitStart rest →
      parseVal fuel (stringifyVal esc v ++ rest) = some (v, rest)) ∧
    (∀ (x : Json) (xs : List Json) (fuel : Nat) (rest : List Char),
      sizeOf x + sizeOf xs ≤ N → needElems (x :: xs) ≤ fuel → NoDigitStart rest →
      parseElems fuel (stringifyVal esc x ++ (stringifyElems esc xs ++ ']' :: rest)) =
        some (x :: xs, rest)) ∧
    (∀ (k : List Char) (v : Json) (fs : List (List Char × Json)) (fuel : Nat)
      (rest : List Char),
      sizeOf v + sizeOf fs ≤ N → needFields ((k, v) :: fs) ≤ fuel → NoDigitStart rest →
      parseFields fuel (stringifyField esc (k, v) ++
        (stringifyFields esc fs ++ cbrace :: rest)) = some ((k, v) :: fs, rest)) := by
  induction N using Nat.strong_induction_on with
  | _ N ih =>
    refine ⟨?_, ?_, ?_⟩
    · -- value scanner
      intro v fuel rest hsz hf hr
      cases fuel with
      | zero => exact absurd hf (by have := need_pos v; omega)
      | succ f =>
        cases v with
        | null => simp [stringifyVal, parseVal]
        | bool b => cases b <;> simp [stringifyVal, parseVal]
        | num n =>
          cases n with
          | ofNat m =>
            obtain ⟨c, t, hct⟩ := List.exists_cons_of_ne_nil (natDigits_ne_nil m)
            have hcd : isDigitChar c = true := natDigits_all_digit m c (by rw [hct]; simp)
            have hin : stringifyVal esc (.num (Int.ofNat m)) ++ rest = c :: (t ++ rest) := by
              simp [stringifyVal, intChars, hct]
            rw [hin, parseVal_succ_digit f c (t ++ rest) hcd]
            have hback : c :: (t ++ rest) = natDigits m ++ rest := by rw [hct]; simp
            rw [hback, parseNatChars_natDigits m rest hr]
            simp
          | negSucc m =>
            have hin : stringifyVal esc (.num (Int.negSucc m)) ++ rest =
                '-' :: (natDigits (m + 1) ++ rest) := by
              simp [stringifyVal, intChars]
            rw [hin, parseVal_succ_neg f _, parseNatChars_natDigits (m + 1) rest hr]
            simp [Int.negSucc_eq]
        | str s =>
          have hin : stringifyVal esc (.str s) ++ rest =
              '"' :: (escBody esc s ++ '"' :: rest) := by
            simp [stringifyVal, quoteChars]
          rw [hin, parseVal_succ_str f _,
            parseStringBody_escBody hesc s _ rest (by
              simp only [List.length_append, List.length_cons]
              have := escBody_len hlen s
              omega)]
          rfl
        | arr xs =>
          cases xs with
          | nil =>
            have hin : stringifyVal esc (.arr []) ++ rest = '[' :: ']' :: rest := by
              simp [stringifyVal]
            rw [hin, parseVal_succ_arr f _]
            simp
          | cons x xs =>
            have hin : stringifyVal esc (.arr (x :: xs)) ++ rest =
                '[' :: (stringifyVal esc x ++ (stringifyElems esc xs ++ ']' :: rest)) := by
              simp [stringifyVal]
            rw [hin, parseVal_succ_arr f _]
            obtain ⟨c, t, hct, hc⟩ := stringify_head esc x
            simp only [Json.arr.sizeOf_spec, List.cons.sizeOf_spec] at hsz
            rw [if_neg (by rw [hct]; simp [hc]),
              (ih (sizeOf x + sizeOf xs) (by omega)).2.1 x xs f rest (le_refl _)
                (by simp [need] at hf; omega) hr]
            rfl
        | obj fs =>
          cases fs with
          | nil =>
            have hin : stringifyVal esc (.obj []) ++ rest = obrace :: cbrace :: rest := by
              simp [stringifyVal]
            rw [hin, parseVal_succ_obj f _]
            simp
          | cons g fs =>
            obtain ⟨k, v⟩ := g
            have hin : stringifyVal esc (.obj ((k, v) :: fs)) ++ rest =
                obrace :: (stringifyField esc (k, v) ++
                  (stringifyFields esc fs ++ cbrace :: rest)) := by
              simp [stringifyVal]
            have hfh : stringifyField esc (k, v) ++
                (stringifyFields esc fs ++ cbrace :: rest) =
                '"' :: (escBody esc k ++
                  ('"' :: ':' :: (stringifyVal esc v ++
                    (stringifyFields esc fs ++ cbrace :: rest)))) := by
              simp [stringifyField, quoteChars]
            simp only [Json.obj.sizeOf_spec, List.cons.sizeOf_spec,
              Prod.mk.sizeOf_spec] at hsz
            rw [hin, parseVal_succ_obj f _]
            rw [if_neg (by rw [hfh]; simp [cbrace]),
              (ih (sizeOf v + sizeOf fs) (by omega)).2.2 k v fs f rest (le_refl _)
                (by simp [need] at hf; omega) hr]
            rfl
    · -- element scanner
      intro x xs fuel rest hsz hf hr
      cases fuel with
      | zero => exact absurd hf (by simp [needElems])
      | succ f =>
        have hr1 : NoDigitStart (stringifyElems esc xs ++ ']' :: rest) := by
          cases xs with
          | nil => exact (by decide : isDigitChar ']' = false)
          | cons y ys => exact (by decide : isDigitChar ',' = false)
        have hxpos := json_sizeOf_pos x
        have hxspos := list_sizeOf_pos xs
        have hval := (ih (sizeOf x) (by omega)).1 x f
          (stringifyElems esc xs ++ ']' :: rest) (le_refl _)
          (by simp [needElems] at hf; omega) hr1
        simp only [parseElems, hval]
        cases xs with
        | nil =>
          simp only [stringifyElems, List.nil_append]
          rfl
        | cons y ys =>
          have hypos := json_sizeOf_pos y
          simp only [List.cons.sizeOf_spec] at hsz
          have hIH := (ih (sizeOf y + sizeOf ys) (by omega)).2.1 y ys f rest (le_refl _)
            (by simp [needElems] at hf ⊢; omega) hr
          simp only [stringifyElems, List.cons_append, List.append_assoc, if_true, hIH]
          rfl
    · -- member scanner
      intro k v fs fuel rest hsz hf hr
      cases fuel with
      | zero => exact absurd hf (by simp [needFields])
      | succ f =>
        have hfh : stringifyField esc (k, v) ++
            (stringifyFields esc fs ++ cbrace :: rest) =
            '"' :: (escBody esc k ++
              ('"' :: ':' :: (stringifyVal esc v ++
                (stringifyFields esc fs ++ cbrace :: rest)))) := by
          simp [stringifyField, quoteChars]
        have hr2 : NoDigitStart (stringifyFields esc fs ++ cbrace :: rest) := by
          cases fs with
          | nil => exact (by decide : isDigitChar cbrace = false)
          | cons g gs => exact (by decide : isDigitChar ',' = false)
        have hstr := parseStringBody_escBody hesc k
          ((escBody esc k ++
            ('"' :: ':' :: (stringifyVal esc v ++
              (stringifyFields esc fs ++ cbrace :: rest)))).length)
          (':' :: (stringifyVal esc v ++ (stringifyFields esc fs ++ cbrace :: rest)))
          (by
            simp only [List.length_append, List.length_cons]
            have := escBody_len hlen k
            omega)
        have hvpos := json_sizeOf_pos v
        have hfspos := list_sizeOf_pos fs
        have hval := (ih (sizeOf v) (by omega)).1 v f
          (stringifyFields esc fs ++ cbrace :: rest) (le_refl _)
          (by simp [needFields] at hf; omega) hr2
        rw [hfh]
        simp only [parseFields, hstr, hval]
        cases fs with
        | nil =>
          simp only [stringifyFields, List.nil_append]
          rfl
        | cons g gs =>
          obtain ⟨k2, v2⟩ := g
          have hv2pos := json_sizeOf_pos v2
          simp only [List.cons.sizeOf_spec, Prod.mk.sizeOf_spec] at hsz
          have hIH := (ih (sizeOf v2 + sizeOf gs) (by omega)).2.2 k2 v2 gs f rest
            (le_refl _) (by simp [needFields] at hf ⊢; omega) hr
          simp only [stringifyFields, List.cons_append, List.append_assoc, if_true, hIH]
          rfl

/-- The value scanner inverts the value printer: parsing the serialization
of a value followed by non-digit input recovers the value, for any
parser-compatible escape and sufficient fuel. -/
theorem parse_stringify_val {esc : Char → List Char} (hesc : EscStep esc)
    (hlen : ∀ c, 1 ≤ (esc c).length) (v : Json) (fuel : Nat) (rest : List Char)
    (hf : need v ≤ fuel) (hr : NoDigitStart rest) :
    parseVal fuel (stringifyVal esc v ++ rest) = some (v, rest) :=
  (parse_stringify_all (sizeOf v) hesc hlen).1 v fuel rest (le_refl _) hf hr

/-- Fuel bound: the fuel needed to scan a serialized value is dominated by
its serialized length plus one, for every escape function. -/
theorem needBound_all (N : Nat) (esc : Char → List Char) :
    (∀ v : Json, sizeOf v ≤ N → need v ≤ (stringifyVal esc v).length + 1) ∧
    (∀ (x : Json) (xs : List Json), sizeOf x + sizeOf xs ≤ N →
      needElems (x :: xs) ≤
        (stringifyVal esc x).length + (stringifyElems esc xs).length + 2) ∧
    (∀ (k : List Char) (v : Json) (fs : List (List Char × Json)),
      sizeOf v + sizeOf fs ≤ N →
      needFields ((k, v) :: fs) ≤
        (stringifyField esc (k, v)).length + (stringifyFields esc fs).length + 2) := by
  induction N using Nat.strong_induction_on with
  | _ N ih =>
    refine ⟨?_, ?_, ?_⟩
    · intro v hsz
      cases v with
      | null => simp [need, stringifyVal]
      | bool b => cases b <;> simp [need, stringifyVal]
      | num n => simp [need]
      | str s => simp [need]
      | arr xs =>
        cases xs with
        | nil => simp [need, needElems, stringifyVal]
        | cons x xs =>
          simp only [Json.arr.sizeOf_spec, List.cons.sizeOf_spec] at hsz
          have hx := (ih (sizeOf x + sizeOf xs) (by omega)).2.1 x xs (le_refl _)
          simp only [need, stringifyVal, List.length_cons, List.length_append,
            List.length_singleton] at *
          omega
      | obj fs =>
        cases fs with
        | nil => simp [need, needFields, stringifyVal]
        | cons g fs =>
          obtain ⟨k, v⟩ := g
          simp only [Json.obj.sizeOf_spec, List.cons.sizeOf_spec,
            Prod.mk.sizeOf_spec] at hsz
          have hx := (ih (sizeOf v + sizeOf fs) (by omega)).2.2 k v fs (le_refl _)
          simp only [need, stringifyVal, List.length_cons, List.length_append,
            List.length_singleton] at *
          omega
    · intro x xs hsz
      have hxpos := json_sizeOf_pos x
      have hxspos := list_sizeOf_pos xs
      have hx := (ih (sizeOf x) (by omega)).1 x (le_refl _)
      cases xs with
      | nil =>
        simp only [needElems, stringifyElems, List.length_nil]
        omega
      | cons y ys =>
        have hypos := json_sizeOf_pos y
        simp only [List.cons.sizeOf_spec] at hsz
        have hy := (ih (sizeOf y + sizeOf ys) (by omega)).2.1 y ys (le_refl _)
        simp only [needElems, stringifyElems, List.length_cons, List.length_append] at *
        omega
    · intro k v fs hsz
      have hvpos := json_sizeOf_pos v
      have hfspos := list_sizeOf_pos fs
      have hv := (ih (sizeOf v) (by omega)).1 v (le_refl _)
      have hqlen : (stringifyField esc (k, v)).length =
          (escBody esc k).length + (stringifyVal esc v).length + 3 := by
        simp [stringifyField, quoteChars]
        omega
      cases fs with
      | nil =>
        simp only [needFields, stringifyFields, List.length_nil]
        omega
      | cons g gs =>
        obtain ⟨k2, v2⟩ := g
        have hv2pos := json_sizeOf_pos v2
        simp only [List.cons.sizeOf_spec, Prod.mk.sizeOf_spec] at hsz
        have hg := (ih (sizeOf v2 + sizeOf gs) (by omega)).2.2 k2 v2 gs (le_refl _)
        simp only [needFields, stringifyFields, List.length_cons,
          List.length_append] at *
        omega

/-- Fuel bound for whole values (corollary of the bundled induction). -/
theorem needBound (esc : Char → List Char) (v : Json) :
    need v ≤ (stringifyVal esc v).length + 1 :=
  (needBound_all (sizeOf v) esc).1 v (le_refl _)

/-- Concatenation distributes over the angle-bracket replacement. -/
theorem escapeLt_append (a b : List Char) :
    escapeLt (a ++ b) = escapeLt a ++ escapeLt b := by
  induction a with
  | nil => rfl
  | cons c cs ih => simp [escapeLt, ih]

/-- The replacement output never contains a left angle bracket: each input
character contributes either the bracket-free sequence `<` or itself,
and in the latter case it is not a bracket. -/
theorem escapeLt_no_lt (l : List Char) : '<' ∉ escapeLt l := by
  induction l with
  | nil => simp [escapeLt]
  | cons c cs ih =>
    by_cases hc : c = '<'
    · subst hc
      simp only [escapeLt, if_pos rfl]
      intro h
      rcases List.mem_append.mp h with h1 | h1
      · exact absurd h1 (by decide)
      · exact ih h1
    · simp only [escapeLt, if_neg hc]
      intro h
      rcases List.mem_append.mp h with h1 | h1
      · rw [List.mem_singleton] at h1
        exact hc h1.symm
      · exact ih h1


/-- The angle-bracket replacement leaves bracket-free text unchanged. -/
theorem escapeLt_of_no_lt {l : List Char} (h : '<' ∉ l) : escapeLt l = l := by
  induction l with
  | nil => rfl
  | cons c cs ih =>
    have hc : c ≠ '<' := fun hc => h (by simp [hc])
    simp [escapeLt, hc, ih (fun hm => h (by simp [hm]))]

/-- Hexadecimal digit characters are never the left angle bracket. -/
theorem hexDigitChar_ne_lt (d : Nat) : hexDigitChar d ≠ '<' := by
  unfold hexDigitChar
  split_ifs with h1
  · interval_cases d <;> decide
  all_goals decide

/-- Applying the angle-bracket replacement to one stringifier escape group
gives the composed escape group. -/
theorem escapeLt_escChar (c : Char) : escapeLt (escChar c) = escCharLt c := by
  by_cases hc : c = '<'
  · subst hc; decide
  · rw [escCharLt, if_neg hc]
    apply escapeLt_of_no_lt
    unfold escChar
    split_ifs with h1 h2 h3 h4 h5 h6 h7 h8
    · decide
    · decide
    · decide
    · decide
    · decide
    · decide
    · decide
    · intro hm
      simp only [List.mem_cons, List.mem_singleton] at hm
      rcases hm with h | h | h | h | h | h | h
      all_goals first
        | exact absurd h.symm (by decide)
        | exact hexDigitChar_ne_lt _ h.symm
        | exact absurd h (List.not_mem_nil _)
    · intro hm
      rw [List.mem_singleton] at hm
      exact hc hm.symm

/-- The angle-bracket replacement maps the plain escaped body to the
composed escaped body. -/
theorem escapeLt_escBody (s : List Char) :
    escapeLt (escBody escChar s) = escBody escCharLt s := by
  induction s with
  | nil => rfl
  | cons c cs ih =>
    simp only [escBody, List.map_cons, List.flatten_cons] at ih ⊢
    rw [escapeLt_append, escapeLt_escChar, ih]

/-- The angle-bracket replacement maps plain string literals to composed
string literals. -/
theorem escapeLt_quote (s : List Char) :
    escapeLt (quoteChars escChar s) = quoteChars escCharLt s := by
  have h1 : escapeLt ['"'] = ['"'] := by decide
  calc escapeLt (quoteChars escChar s)
      = escapeLt (['"'] ++ (escBody escChar s ++ ['"'])) := by simp [quoteChars]
    _ = escapeLt ['"'] ++ (escapeLt (escBody escChar s) ++ escapeLt ['"']) := by
        rw [escapeLt_append, escapeLt_append]
    _ = '"' :: escBody escCharLt s ++ ['"'] := by rw [h1, escapeLt_escBody]; rfl
    _ = quoteChars escCharLt s := rfl

/-- Decimal expansions contain no left angle bracket. -/
theorem natDigits_no_lt (n : Nat) : '<' ∉ natDigits n := by
  intro hm
  have hd := natDigits_all_digit n '<' hm
  revert hd
  decide

/-- The angle-bracket replacement commutes with the whole stringifier:
replacing after printing with the plain escape equals printing with the
composed escape, since `<` can only occur inside string literals. -/
theorem escapeLt_stringify_all (N : Nat) :
    (∀ v : Json, sizeOf v ≤ N →
      escapeLt (stringifyVal escChar v) = stringifyVal escCharLt v) ∧
    (∀ xs : List Json, sizeOf xs ≤ N →
      escapeLt (stringifyElems escChar xs) = stringifyElems escCharLt xs) ∧
    (∀ fs : List (List Char × Json), sizeOf fs ≤ N →
      escapeLt (stringifyFields escChar fs) = stringifyFields escCharLt fs) := by
  induction N using Nat.strong_induction_on with
  | _ N ih =>
    refine ⟨?_, ?_, ?_⟩
    · intro v hsz
      cases v with
      | null => exact escapeLt_of_no_lt (by decide)
      | bool b => cases b <;> exact escapeLt_of_no_lt (by decide)
      | num n =>
        cases n with
        | ofNat m =>
          simp only [stringifyVal, intChars]
          exact escapeLt_of_no_lt (natDigits_no_lt m)
        | negSucc m =>
          simp only [stringifyVal, intChars]
          have : escapeLt ('-' :: natDigits (m + 1)) =
              '-' :: escapeLt (natDigits (m + 1)) := by
            simp [escapeLt]
          rw [this, escapeLt_of_no_lt (natDigits_no_lt (m + 1))]
      | str s => exact escapeLt_quote s
      | arr xs =>
        cases xs with
        | nil => exact escapeLt_of_no_lt (by decide)
        | cons x xs =>
          simp only [Json.arr.sizeOf_spec, List.cons.sizeOf_spec] at hsz
          have hxpos := json_sizeOf_pos x
          have hxspos := list_sizeOf_pos xs
          have hx := (ih (sizeOf x) (by omega)).1 x (le_refl _)
          have hxs := (ih (sizeOf xs) (by omega)).2.1 xs (le_refl _)
          simp only [stringifyVal]
          have hop : escapeLt ('[' :: (stringifyVal escChar x ++
              (stringifyElems escChar xs ++ [']']))) =
              '[' :: (escapeLt (stringifyVal escChar x) ++
                (escapeLt (stringifyElems escChar xs) ++ escapeLt [']'])) := by
            simp [escapeLt, escapeLt_append]
          rw [List.append_assoc, hop, hx, hxs]
          simp [List.append_assoc]
          decide
      | obj fs =>
        cases fs with
        | nil => exact escapeLt_of_no_lt (by decide)
        | cons g fs =>
          obtain ⟨k, v⟩ := g
          simp only [Json.obj.sizeOf_spec, List.cons.sizeOf_spec,
            Prod.mk.sizeOf_spec] at hsz
          have hvpos := json_sizeOf_pos v
          have hfspos := list_sizeOf_pos fs
          have hv := (ih (sizeOf v) (by omega)).1 v (le_refl _)
          have hfs := (ih (sizeOf fs) (by omega)).2.2 fs (le_refl _)
          simp only [stringifyVal, stringifyField]
          have hop : escapeLt (obrace :: ((quoteChars escChar k ++
              ':' :: stringifyVal escChar v) ++
              (stringifyFields escChar fs ++ [cbrace]))) =
              obrace :: ((escapeLt (quoteChars escChar k) ++
                escapeLt (':' :: stringifyVal escChar v)) ++
                (escapeLt (stringifyFields escChar fs) ++ escapeLt [cbrace])) := by
            simp [escapeLt, escapeLt_append, obrace]
          rw [List.append_assoc, hop, escapeLt_quote, hfs]
          have hcol : escapeLt (':' :: stringifyVal escChar v) =
              ':' :: escapeLt (stringifyVal escChar v) := by
            simp [escapeLt]
          rw [hcol, hv]
          have hcb : escapeLt [cbrace] = [cbrace] := by decide
          rw [hcb]
          simp [List.append_assoc]
    · intro xs hsz
      cases xs with
      | nil => rfl
      | cons x xs =>
        simp only [List.cons.sizeOf_spec] at hsz
        have hxpos := json_sizeOf_pos x
        have hxspos := list_sizeOf_pos xs
        have hx := (ih (sizeOf x) (by omega)).1 x (le_refl _)
        have hxs := (ih (sizeOf xs) (by omega)).2.1 xs (le_refl _)
        simp only [stringifyElems]
        have hop : escapeLt (',' :: (stringifyVal escChar x ++
            stringifyElems escChar xs)) =
            ',' :: (escapeLt (stringifyVal escChar x) ++
              escapeLt (stringifyElems escChar xs)) := by
          simp [escapeLt, escapeLt_append]
        rw [hop, hx, hxs]
    · intro fs hsz
      cases fs with
      | nil => rfl
      | cons g fs =>
        obtain ⟨k, v⟩ := g
        simp only [List.cons.sizeOf_spec, Prod.mk.sizeOf_spec] at hsz
        have hvpos := json_sizeOf_pos v
        have hfspos := list_sizeOf_pos fs
        have hv := (ih (sizeOf v) (by omega)).1 v (le_refl _)
        have hfs := (ih (sizeOf fs) (by omega)).2.2 fs (le_refl _)
        simp only [stringifyFields, stringifyField]
        have hop : escapeLt (',' :: ((quoteChars escChar k ++
            ':' :: stringifyVal escChar v) ++ stringifyFields escChar fs)) =
            ',' :: ((escapeLt (quoteChars escChar k) ++
              escapeLt (':' :: stringifyVal escChar v)) ++
              escapeLt (stringifyFields escChar fs)) := by
          simp [escapeLt, escapeLt_append]
        have hcol : escapeLt (':' :: stringifyVal escChar v) =
            ':' :: escapeLt (stringifyVal escChar v) := by
          simp [escapeLt]
        rw [hop, escapeLt_quote, hcol, hv, hfs]

/-- Output of `serializeContent` is exactly the composed-escape printer. -/
theorem serializeContent_eq_lt (v : Json) :
    serializeContent v = stringifyVal escCharLt v := by
  unfold serializeContent
  exact (escapeLt_stringify_all (sizeOf v)).1 v (le_refl _)

/-- C3: for every serializable payload — in particular any payload containing
the literal substring `</script>` — the output of `serializeContent` contains
no occurrence of the character `<`: every `<` of the serialized text has been
replaced by its escaped numeric form `\u003c`, and no payload is rejected
(`serializeContent` is a total function on payloads). -/
theorem serializeContent_no_unescaped_lt (content : Json) :
    '<' ∉ serializeContent content := by
  unfold serializeContent
  exact escapeLt_no_lt _

/-- C4: `serializeContent` round-trips — parsing its output as JSON yields a
value structurally equal to the input payload, for every serializable
payload. -/
theorem serializeContent_roundtrip (content : Json) :
    parseJson (serializeContent content) = some content := by
  rw [serializeContent_eq_lt]
  have h := parse_stringify_val escStep_escCharLt escCharLt_len content
    ((stringifyVal escCharLt content).length + 1) []
    (needBound escCharLt content) trivial
  rw [List.append_nil] at h
  unfold parseJson
  rw [h]


/-- Stripping the query: the slug of a path with any query component equals
the slug of the bare base path, when the base itself contains no `?`. -/
theorem getSlugFromUrl_withQuery (base : List Char) (hq : '?' ∉ base)
    (oq : Option (List Char)) :
    getSlugFromUrl (withQuery base oq) = getSlugFromUrl base := by
  cases oq with
  | none => rfl
  | some q =>
    unfold getSlugFromUrl withQuery
    have hall : ∀ c ∈ base, (fun c => c != '?') c = true := by
      intro c hc
      simp only [bne_iff_ne, ne_eq]
      exact fun h => hq (h ▸ hc)
    have hq1 : ('?' :: q).takeWhile (fun c => c != '?') = [] := by
      rw [List.takeWhile_cons, if_neg (by simp)]
    have hbase : base.takeWhile (fun c => c != '?') = base := by
      have h0 := takeWhile_append_all base [] hall
      simpa using h0
    rw [takeWhile_append_all base ('?' :: q) hall, hq1, List.append_nil, hbase]

/-- C5: content resolution is invariant under query strings — for every
provider behaviour and every pair of request paths that share a base path
(itself query-free) and differ only in their optional query component,
`resolveBySlug` (query stripping composed with the provider lookup) returns
the same result. -/
theorem resolveBySlug_query_invariant (provider : List Char → ProviderResult)
    (base : List Char) (hq : '?' ∉ base) (oq1 oq2 : Option (List Char)) :
    resolveBySlug provider (withQuery base oq1) =
      resolveBySlug provider (withQuery base oq2) := by
  unfold resolveBySlug
  rw [getSlugFromUrl_withQuery base hq oq1, getSlugFromUrl_withQuery base hq oq2]

/-- Witness for C5 at a concrete pair of paths differing only in query. -/
theorem resolveBySlug_query_invariant_witness :
    resolveBySlug (fun _ => ProviderResult.ok (some []))
        (withQuery "/about".toList (some "foo=bar".toList)) =
      resolveBySlug (fun _ => ProviderResult.ok (some []))
        (withQuery "/about".toList none) :=
  resolveBySlug_query_invariant (fun _ => ProviderResult.ok (some []))
    "/about".toList (by decide) (some "foo=bar".toList) none

/-- C6: the content resolver never raises to its caller — for every slug
and every provider behaviour its result is a payload or null; a thrown
provider failure is caught and normalized to null; an absent (malformed)
entries array yields null; and a present entries array yields its first
entry or null when empty. -/
theorem fetchPageBySlug_never_raises (provider : List Char → ProviderResult)
    (slug : List Char) :
    (fetchPageBySlug provider slug = none ∨
      ∃ p, fetchPageBySlug provider slug = some p) ∧
    (∀ e, provider slug = ProviderResult.failure e →
      fetchPageBySlug provider slug = none) ∧
    (provider slug = ProviderResult.ok none →
      fetchPageBySlug provider slug = none) ∧
    (∀ entries, provider slug = ProviderResult.ok (some entries) →
      fetchPageBySlug provider slug = entries.head?) := by
  refine ⟨?_, ?_, ?_, ?_⟩
  · cases h : fetchPageBySlug provider slug with
    | none => exact Or.inl rfl
    | some p => exact Or.inr ⟨p, rfl⟩
  · intro e he
    simp [fetchPageBySlug, fetchPageBySlugE, he]
  · intro h
    simp [fetchPageBySlug, fetchPageBySlugE, h]
  · intro entries h
    simp [fetchPageBySlug, fetchPageBySlugE, h]

/-- Witness for C6: a concrete provider failure is normalized to null. -/
theorem fetchPageBySlug_never_raises_witness :
    fetchPageBySlug (fun _ => ProviderResult.failure "network down".toList)
      "/about".toList = none :=
  (fetchPageBySlug_never_raises
    (fun _ => ProviderResult.failure "network down".toList) "/about".toList).2.1
    "network down".toList rfl

/-- C2: fetch discipline of the hydration synchronizer seeded with any
payload at initial path `a` — the seeded state has issued zero fetches and
exposes the embedded payload as-is; a route-effect run whose pathname still
equals `a` (first attachment, or a no-op re-run) leaves the state unchanged
and issues zero fetches; a route change to a different path `b` issues
exactly one fetch. -/
theorem hydration_fetch_discipline (preview : Bool)
    (provider : List Char → Option Page) (p0 : Option Page)
    (a b : List Char) (hab : b ≠ a) :
    (initState p0 a).fetchCount = 0 ∧
    (initState p0 a).page = p0 ∧
    step preview provider (initState p0 a) (ClientEvent.navigate a) = initState p0 a ∧
    (step preview provider (initState p0 a) (ClientEvent.navigate b)).fetchCount = 1 := by
  refine ⟨rfl, rfl, ?_, ?_⟩
  · simp [step, initState]
  · simp [step, initState, hab]

/-- Witness for C2 at concrete paths `/a` and `/b`. -/
theorem hydration_fetch_discipline_witness :
    (initState none "/a".toList).fetchCount = 0 ∧
    (initState none "/a".toList).page = none ∧
    step false (fun _ => none) (initState none "/a".toList)
      (ClientEvent.navigate "/a".toList) = initState none "/a".toList ∧
    (step false (fun _ => none) (initState none "/a".toList)
      (ClientEvent.navigate "/b".toList)).fetchCount = 1 :=
  hydration_fetch_discipline false (fun _ => none) none "/a".toList "/b".toList
    (by decide)

/-- C8: a content-change notification arriving while the readiness flag is
still false leaves the synchronizer state entirely unchanged — no fetch is
issued and nothing is queued — while a notification arriving after the
channel is registered and ready issues exactly one fetch. -/
theorem notify_gated_on_readiness (preview : Bool)
    (provider : List Char → Option Page) (s : ClientState) :
    (s.lpReady = false → step preview provider s ClientEvent.notify = s) ∧
    (s.lpInited = true → s.lpReady = true →
      (step preview provider s ClientEvent.notify).fetchCount = s.fetchCount + 1) := by
  constructor
  · intro h
    simp [step, h]
  · intro h1 h2
    simp [step, h1, h2]

/-- Witness for C8: in the freshly seeded state (readiness flag false) a
notification is a no-op. -/
theorem notify_gated_on_readiness_witness :
    step false (fun _ => none) (initState none "/a".toList) ClientEvent.notify =
      initState none "/a".toList :=
  (notify_gated_on_readiness false (fun _ => none)
    (initState none "/a".toList)).1 rfl

/-- C1 evaluation at the failing trace: after navigating `/a` to `/b` and back
to `/a`, letting the fetch for `/a` resolve first and the stale fetch for
the abandoned path `/b` resolve last, the page state holds the content of
`/b` although the current path is `/a` — the stale result was committed and
overwrote the content fetched for the current path. -/
theorem stale_fetch_overwrites_current :
    (runTrace false abProvider (initState (some pageA) "/a".toList) staleTrace).pathname
        = "/a".toList ∧
    (runTrace false abProvider (initState (some pageA) "/a".toList) staleTrace).page
        = some pageB ∧
    abProvider "/a".toList = some pageA ∧
    pageA ≠ pageB := by
  refine ⟨by decide, by decide, by decide, by decide⟩


/-- Pushing through a fold one element at a time equals appending the map. -/
theorem foldl_push_map {a b : Type} (f : a → b) (l : List a) :
    ∀ init : List b, l.foldl (fun acc x => acc ++ [f x]) init = init ++ l.map f := by
  induction l with
  | nil => intro init; simp
  | cons x xs ih =>
    intro init
    rw [List.foldl_cons, ih]
    simp

/-- The import fold of `generateAssetTags` appends exactly the declarative
preload segment to its accumulator. -/
theorem importsFold_fst (manifest : Manifest) (base : List Char) :
    ∀ (keys : List (List Char)) (acc : List AssetTag) (seen : List (List Char)),
      (keys.foldl (importStep manifest base) (acc, seen)).1 =
        acc ++ preloads manifest base keys seen := by
  intro keys
  induction keys with
  | nil => intro acc seen; simp [preloads]
  | cons k rest ih =>
    intro acc seen
    by_cases hk : k ∈ seen
    · simp [importStep, preloads, hk, ih]
    · cases hm : manifest k with
      | none => simp [importStep, preloads, hk, hm, ih]
      | some ie =>
        by_cases hf : ie.file.isEmpty
        · simp [importStep, preloads, hk, hm, hf, ih]
        · simp [importStep, preloads, hk, hm, hf, ih, List.append_assoc]

/-- Decomposition of `generateAssetTags` on a present entry: stylesheet
tags for the CSS files, then the deduplicated resolved-import preload tags,
then the single module tag, in that order. -/
theorem generateAssetTags_decomp (base : List Char) (manifest : Manifest)
    (entryKey : List Char) (entry : ManifestEntry)
    (h : manifest entryKey = some entry) :
    generateAssetTags base manifest entryKey = Except.ok
      ((entry.css.getD []).map (stylesheetTag base) ++
        preloads manifest base (entry.imports.getD []) [] ++
        [moduleTag base entry.file]) := by
  simp only [generateAssetTags, h]
  rw [foldl_push_map (stylesheetTag base) (entry.css.getD []) [],
    importsFold_fst manifest base (entry.imports.getD [])
      ([] ++ (entry.css.getD []).map (stylesheetTag base)) []]
  simp [List.append_assoc]

/-- Every preload-segment tag is a modulepreload tag. -/
theorem preloads_kinds (manifest : Manifest) (base : List Char) :
    ∀ (keys seen : List (List Char)),
      (preloads manifest base keys seen).map AssetTag.kind =
        List.replicate (preloads manifest base keys seen).length
          TagKind.modulepreload := by
  intro keys
  induction keys with
  | nil => intro seen; simp [preloads]
  | cons k rest ih =>
    intro seen
    by_cases hk : k ∈ seen
    · simp [preloads, hk, ih]
    · cases hm : manifest k with
      | none => simp [preloads, hk, hm, ih]
      | some ie =>
        by_cases hf : ie.file.isEmpty
        · simp [preloads, hk, hm, hf, ih]
        · simp [preloads, hk, hm, hf, ih, preloadTag, List.replicate_succ]

/-- Stylesheet segment tags are all stylesheet tags. -/
theorem cssTags_kinds (base : List Char) (l : List (List Char)) :
    (l.map (stylesheetTag base)).map AssetTag.kind =
      List.replicate l.length TagKind.stylesheet := by
  induction l with
  | nil => rfl
  | cons c cs ih => simp [stylesheetTag, List.replicate_succ, ih]

/-- C7: for every manifest entry, the manifest resolver emits one
stylesheet reference per listed CSS file first, then one modulepreload
reference per deduplicated direct import that resolves to an output file,
then exactly one module reference for the entry's own file, in that order:
the result decomposes into the three ordered segments, and its kind
sequence is stylesheets, then modulepreloads, then one module. -/
theorem generateAssetTags_order (base : List Char) (manifest : Manifest)
    (entryKey : List Char) (entry : ManifestEntry)
    (h : manifest entryKey = some entry) :
    generateAssetTags base manifest entryKey = Except.ok
      ((entry.css.getD []).map (stylesheetTag base) ++
        preloads manifest base (entry.imports.getD []) [] ++
        [moduleTag base entry.file]) ∧
    (∀ tags, generateAssetTags base manifest entryKey = Except.ok tags →
      tags.map AssetTag.kind =
        List.replicate (entry.css.getD []).length TagKind.stylesheet ++
        List.replicate (preloads manifest base (entry.imports.getD []) []).length
          TagKind.modulepreload ++
        [TagKind.module]) := by
  have hd := generateAssetTags_decomp base manifest entryKey entry h
  refine ⟨hd, ?_⟩
  intro tags htags
  rw [hd] at htags
  have htags2 : (entry.css.getD []).map (stylesheetTag base) ++
      preloads manifest base (entry.imports.getD []) [] ++
      [moduleTag base entry.file] = tags := by
    exact Except.ok.inj htags
  subst htags2
  simp only [List.map_append, cssTags_kinds, preloads_kinds]
  simp [moduleTag]

/-- Witness for C7 at a concrete manifest whose entry lists two CSS files
and one resolvable import: two stylesheet tags, one modulepreload tag, one
module tag, in that order. -/
theorem generateAssetTags_order_witness :
    generateAssetTags [] exManifest "src/entry-client.tsx".toList =
      Except.ok exTags ∧
    exTags.map AssetTag.kind =
      [TagKind.stylesheet, TagKind.stylesheet, TagKind.modulepreload,
       TagKind.module] := by
  have h := generateAssetTags_order [] exManifest "src/entry-client.tsx".toList
    exEntry (by decide)
  refine ⟨h.1, ?_⟩
  have h2 := h.2 exTags h.1
  rw [h2]
  decide

/-- Every tag of the declarative preload segment carries `crossorigin`. -/
theorem preloads_crossorigin (manifest : Manifest) (base : List Char) :
    ∀ (keys seen : List (List Char)) (t : AssetTag),
      t ∈ preloads manifest base keys seen → t.crossorigin = true := by
  intro keys
  induction keys with
  | nil => intro seen t ht; simp [preloads] at ht
  | cons k rest ih =>
    intro seen t ht
    by_cases hk : k ∈ seen
    · rw [preloads, if_pos hk] at ht
      exact ih seen t ht
    · rw [preloads, if_neg hk] at ht
      cases hm : manifest k with
      | none =>
        simp only [hm] at ht
        exact ih (k :: seen) t ht
      | some ie =>
        simp only [hm] at ht
        by_cases hf : ie.file.isEmpty = true
        · rw [if_pos hf] at ht
          exact ih (k :: seen) t ht
        · rw [if_neg hf] at ht
          rcases List.mem_cons.mp ht with h | h
          · rw [h]; rfl
          · exact ih (k :: seen) t h

/-- C9: every asset tag emitted by the manifest resolver — stylesheet link,
modulepreload link, and module script — carries the `crossorigin` attribute
unconditionally, for every manifest entry and regardless of the configured
asset base URL (including the empty one). -/
theorem assetTags_crossorigin (base : List Char) (manifest : Manifest)
    (entryKey : List Char) (tags : List AssetTag)
    (h : generateAssetTags base manifest entryKey = Except.ok tags) :
    ∀ t ∈ tags, t.crossorigin = true := by
  cases hm : manifest entryKey with
  | none => simp [generateAssetTags, hm] at h
  | some entry =>
    have hd := generateAssetTags_decomp base manifest entryKey entry hm
    rw [hd] at h
    have htags : (entry.css.getD []).map (stylesheetTag base) ++
        preloads manifest base (entry.imports.getD []) [] ++
        [moduleTag base entry.file] = tags := Except.ok.inj h
    subst htags
    intro t ht
    rcases List.mem_append.mp ht with h1 | h1
    · rcases List.mem_append.mp h1 with h2 | h2
      · obtain ⟨c, _, hc⟩ := List.mem_map.mp h2
        rw [← hc]
        rfl
      · exact preloads_crossorigin manifest base _ [] t h2
    · rw [List.mem_singleton] at h1
      rw [h1]
      rfl

/-- Witness for C9: all tags emitted for the concrete manifest carry
`crossorigin`, with an empty asset base URL configured. -/
theorem assetTags_crossorigin_witness :
    exTags.all (fun t => t.crossorigin) = true := by
  have h := assetTags_crossorigin [] exManifest "src/entry-client.tsx".toList
    exTags (generateAssetTags_decomp [] exManifest "src/entry-client.tsx".toList
      exEntry (by decide))
  rw [List.all_eq_true]
  intro t ht
  simpa using h t ht

/-- C10: hydration is attempted at most once per page load — the entry
module's run is idempotent, a missing container or an already-set hydrated
flag makes it a no-op, one run performs at most one hydration, and whenever
it hydrates it has set the hydrated flag. -/
theorem entry_client_single_hydration (w : WindowState) :
    runEntryClient (runEntryClient w) = runEntryClient w ∧
    (w.hasContainer = false → runEntryClient w = w) ∧
    (w.hydrated = true → runEntryClient w = w) ∧
    (runEntryClient w).hydrations ≤ w.hydrations + 1 ∧
    ((runEntryClient w).hydrations ≠ w.hydrations →
      (runEntryClient w).hydrated = true) := by
  by_cases h1 : w.hasContainer = true ∧ w.hydrated = false
  · simp [runEntryClient, h1]
  · simp [runEntryClient, h1]

/-- Witness for C10: on a fresh page with the container present, a second
execution of the entry module performs no further hydration. -/
theorem entry_client_single_hydration_witness :
    runEntryClient (runEntryClient
      { hasContainer := true, hydrated := false, hydrations := 0 }) =
      runEntryClient { hasContainer := true, hydrated := false, hydrations := 0 } :=
  (entry_client_single_hydration
    { hasContainer := true, hydrated := false, hydrations := 0 }).1

end FragmentApp
